import Mathlib

/-!
Verification development for the `fln/go-metrics-influx` repository
(`influxmetrics.go`): a go-metrics to InfluxDB reporter.

The repository snapshot carries two revisions of the reporter:

* the current revision (influxdb-client-go/v2): `New` with variadic
  options, `Run(ctx)` with an asynchronous write API, an error-drain
  goroutine joined through a `sync.WaitGroup`, and a counter `diff`
  clamped to the full count when negative;
* an earlier revision (influxdb client v2 HTTP API): `NewReporter`
  with chained setters, a synchronous `c.Write(bp)` of one batch per
  tick guarded by a non-empty check, a client-construction error path
  that logs and returns, and an unclamped counter `diff`.

Both are embedded below where a claim is about them.  Strings are
modelled as `List Char` (Go strings are byte sequences; all parsing in
the source splits on single ASCII characters), Go maps as association
lists with replace-on-insert, and `int64` counters as `Int`. Values the
translator merely copies out of instrument snapshots (gauge readings,
histogram statistics, rates) are carried as opaque `Int` payloads: the
reporter never computes with them, it only places them into fields.
-/

namespace GoMetricsInflux

/-! ## Go map model: association lists with replace-on-insert -/

/-- Read a Go map: `m[k]` as an `Option`. -/
def mget {K V : Type} [DecidableEq K] (m : List (K × V)) (k : K) : Option V :=
  match m with
  | [] => none
  | (k0, v0) :: rest => if k0 = k then some v0 else mget rest k

/-- Write a Go map: `m[k] = v` replaces the binding for `k` or adds one. -/
def mset {K V : Type} [DecidableEq K] (m : List (K × V)) (k : K) (v : V) :
    List (K × V) :=
  match m with
  | [] => [(k, v)]
  | (k0, v0) :: rest => if k0 = k then (k, v) :: rest else (k0, v0) :: mset rest k v

/-- Left-biased union used only in specification-side statements. -/
def oOr {V : Type} (a b : Option V) : Option V :=
  match a with
  | some v => some v
  | none => b

/-! ## Splitting on a separator character

`strings.Split(s, sep)` for a one-character separator, on the
`List Char` model of Go strings: `splitOnC ',' "a,,b" = ["a", "", "b"]`
and `splitOnC ',' "" = [""]`. -/

def splitOnC (sep : Char) : List Char → List (List Char)
  | [] => [[]]
  | c :: rest =>
    match splitOnC sep rest with
    | [] => [[c]]
    | s :: ss => if c = sep then [] :: s :: ss else (c :: s) :: ss

/-! ## Measurement-name and tag parsing

Embedding of the parsing loop shared verbatim by both revisions of
`Reporter.report`:

```go
measurement := name
if parts := strings.Split(name, ","); len(parts) > 1 {
    measurement = parts[0]
    for i := 1; i < len(parts); i++ {
        kv := strings.Split(parts[i], "=")
        if len(kv) == 2 {
            tags[kv[0]] = kv[1]
            continue
        }
        measurement = fmt.Sprintf("%s,%s", measurement, parts[i])
    }
}
```

The accumulator pairs the measurement built so far with the tag map,
which on entry already holds the reporter-wide static tags. -/

/-- Tag maps: Go `map[string]string` on `List Char` strings. -/
abbrev Tags := List (List Char × List Char)

/-- One iteration of the parsing loop for the segment `seg`
(`parts[i]`, `i ≥ 1`). -/
def parseStep (acc : List Char × Tags) (seg : List Char) : List Char × Tags :=
  match splitOnC '=' seg with
  | [k, v] => (acc.1, mset acc.2 k v)
  | _ => (acc.1 ++ ',' :: seg, acc.2)

/-- The whole name/tag parse of `Reporter.report` for one instrument
name, threading the tag map `tags0` (the copy of the static tags). -/
def parseName (name : List Char) (tags0 : Tags) : List Char × Tags :=
  match splitOnC ',' name with
  | [] => (name, tags0)
  | [_] => (name, tags0)
  | p0 :: s :: ss => (s :: ss).foldl parseStep (p0, tags0)

/-- Modelled from the spec: a segment matches the tag-pair pattern when
it contains exactly one `=`; then the key is everything before that
`=` and the value everything after it.  Non-matching segments are
re-appended to the measurement with their leading comma. -/
def specParseStep (acc : List Char × Tags) (seg : List Char) : List Char × Tags :=
  if seg.count '=' = 1 then
    (acc.1, mset acc.2 (seg.takeWhile (fun c => c ≠ '='))
      ((seg.dropWhile (fun c => c ≠ '=')).tail))
  else
    (acc.1 ++ ',' :: seg, acc.2)

/-- Modelled from the spec: the first comma-delimited segment is the
base measurement; later segments are folded by `specParseStep`. -/
def specParseName (name : List Char) (tags0 : Tags) : List Char × Tags :=
  match splitOnC ',' name with
  | [] => (name, tags0)
  | [_] => (name, tags0)
  | p0 :: s :: ss => (s :: ss).foldl specParseStep (p0, tags0)

/-! ## Instrument readings and data points

One registry entry is a name together with the reading consumed by the
type switch in `Reporter.report`.  Snapshot statistics the reporter
only copies (rates, means, percentiles, …) are opaque `Int` payloads;
the six percentile values are those returned by
`Snapshot().Percentiles([0.5, 0.75, 0.95, 0.99, 0.999, 0.9999])`. -/

structure HistogramSnapshot where
  count : Int
  max : Int
  mean : Int
  min : Int
  stddev : Int
  variance : Int
  p50 : Int
  p75 : Int
  p95 : Int
  p99 : Int
  p999 : Int
  p9999 : Int
deriving DecidableEq

structure MeterSnapshot where
  count : Int
  m1 : Int
  m5 : Int
  m15 : Int
  mean : Int
deriving DecidableEq

structure TimerSnapshot where
  count : Int
  max : Int
  mean : Int
  min : Int
  stddev : Int
  variance : Int
  p50 : Int
  p75 : Int
  p95 : Int
  p99 : Int
  p999 : Int
  p9999 : Int
  m1 : Int
  m5 : Int
  m15 : Int
  meanrate : Int
deriving DecidableEq

/-- The variants distinguished by the type switch in `report`; `other`
is any registry value hitting the `default:` arm. -/
inductive Metric where
  | counter (count : Int)
  | gauge (value : Int)
  | gaugeFloat64 (value : Int)
  | histogram (snap : HistogramSnapshot)
  | meter (snap : MeterSnapshot)
  | timer (snap : TimerSnapshot)
  | other
deriving DecidableEq

/-- An influx data point as built by `write.NewPoint` /
`client.NewPoint`: measurement, tags, fields, timestamp. -/
structure Point where
  measurement : List Char
  tags : Tags
  fields : List (String × Int)
  timestamp : Nat
deriving DecidableEq

/-- The `r.lastCounter` map from raw instrument name to last count. -/
abbrev LastCounter := List (List Char × Int)

/-- Reading `r.lastCounter[name]`: a missing key reads as Go's zero. -/
def lastGet (last : LastCounter) (name : List Char) : Int :=
  (mget last name).getD 0

def histogramFields (s : HistogramSnapshot) : List (String × Int) :=
  [("count", s.count), ("max", s.max), ("mean", s.mean), ("min", s.min),
   ("stddev", s.stddev), ("variance", s.variance), ("p50", s.p50),
   ("p75", s.p75), ("p95", s.p95), ("p99", s.p99), ("p999", s.p999),
   ("p9999", s.p9999)]

def meterFields (s : MeterSnapshot) : List (String × Int) :=
  [("count", s.count), ("m1", s.m1), ("m5", s.m5), ("m15", s.m15),
   ("mean", s.mean)]

def timerFields (s : TimerSnapshot) : List (String × Int) :=
  [("count", s.count), ("max", s.max), ("mean", s.mean), ("min", s.min),
   ("stddev", s.stddev), ("variance", s.variance), ("p50", s.p50),
   ("p75", s.p75), ("p95", s.p95), ("p99", s.p99), ("p999", s.p999),
   ("p9999", s.p9999), ("m1", s.m1), ("m5", s.m5), ("m15", s.m15),
   ("meanrate", s.meanrate)]

/-! ## Translation, current revision (influxdb-client-go/v2)

The body of the `registry.Each` callback in the current
`Reporter.report`: copy the static tags, parse the name, switch on the
metric kind.  The counter arm clamps a negative `diff` to the full
current count and then stores the current count unconditionally. -/

def translate (staticTags : Tags) (tstamp : Nat) (last : LastCounter)
    (name : List Char) (metric : Metric) : Option Point × LastCounter :=
  let mt := parseName name staticTags
  match metric with
  | .counter count =>
    let diff0 := count - lastGet last name
    let diff := if diff0 < 0 then count else diff0
    (some { measurement := mt.1, tags := mt.2,
            fields := [("count", count), ("diff", diff)],
            timestamp := tstamp },
     mset last name count)
  | .gauge v =>
    (some { measurement := mt.1, tags := mt.2, fields := [("value", v)],
            timestamp := tstamp }, last)
  | .gaugeFloat64 v =>
    (some { measurement := mt.1, tags := mt.2, fields := [("value", v)],
            timestamp := tstamp }, last)
  | .histogram s =>
    (some { measurement := mt.1, tags := mt.2, fields := histogramFields s,
            timestamp := tstamp }, last)
  | .meter s =>
    (some { measurement := mt.1, tags := mt.2, fields := meterFields s,
            timestamp := tstamp }, last)
  | .timer s =>
    (some { measurement := mt.1, tags := mt.2, fields := timerFields s,
            timestamp := tstamp }, last)
  | .other => (none, last)

/-- One tick of the current `Reporter.report`: run the callback over
every registry entry in iteration order; `some` points are passed to
`rapi.WritePoint`, collected here in order. -/
def report (staticTags : Tags) (tstamp : Nat) (last : LastCounter) :
    List (List Char × Metric) → List Point × LastCounter
  | [] => ([], last)
  | (name, m) :: rest =>
    match translate staticTags tstamp last name m with
    | (none, last') => report staticTags tstamp last' rest
    | (some p, last') =>
      let r := report staticTags tstamp last' rest
      (p :: r.1, r.2)

/-! ## Translation and report, earlier revision (influxdb client v2 HTTP)

The earlier `Reporter.report` collects points into one `BatchPoints`
value, skips the sink write when the batch is empty, and calls the
synchronous `c.Write(bp)` otherwise, logging (not propagating) a write
error.  Its counter arm does not clamp: `diff := count -
r.lastCounter[name]` is used as is.  (`client.NewPoint` can only fail
on an empty or ill-typed field set, which the fixed field lists above
never produce; the model therefore treats it as total.) -/

def translateV1 (staticTags : Tags) (now : Nat) (last : LastCounter)
    (name : List Char) (metric : Metric) : Option Point × LastCounter :=
  let mt := parseName name staticTags
  match metric with
  | .counter count =>
    let diff := count - lastGet last name
    (some { measurement := mt.1, tags := mt.2,
            fields := [("count", count), ("diff", diff)],
            timestamp := now },
     mset last name count)
  | .gauge v =>
    (some { measurement := mt.1, tags := mt.2, fields := [("value", v)],
            timestamp := now }, last)
  | .gaugeFloat64 v =>
    (some { measurement := mt.1, tags := mt.2, fields := [("value", v)],
            timestamp := now }, last)
  | .histogram s =>
    (some { measurement := mt.1, tags := mt.2, fields := histogramFields s,
            timestamp := now }, last)
  | .meter s =>
    (some { measurement := mt.1, tags := mt.2, fields := meterFields s,
            timestamp := now }, last)
  | .timer s =>
    (some { measurement := mt.1, tags := mt.2, fields := timerFields s,
            timestamp := now }, last)
  | .other => (none, last)

/-- Registry walk of the earlier `report`: the points added to `bp`. -/
def reportV1 (staticTags : Tags) (now : Nat) (last : LastCounter) :
    List (List Char × Metric) → List Point × LastCounter
  | [] => ([], last)
  | (name, m) :: rest =>
    match translateV1 staticTags now last name m with
    | (none, last') => reportV1 staticTags now last' rest
    | (some p, last') =>
      let r := reportV1 staticTags now last' rest
      (p :: r.1, r.2)

/-- Outcome of one call of the earlier `report`, seen at the sink
boundary: the batch handed to `c.Write` if any, and whether a write
error was logged.  `report` itself returns nothing to its caller. -/
structure TickOutcome where
  batchWritten : Option (List Point)
  writeErrorLogged : Bool
deriving DecidableEq

/-- The tail of the earlier `report`: skip the write when the batch is
empty, otherwise write it once; a failed write is only logged.
`writeOk` is the sink's verdict for this one write. -/
def reportV1Tick (staticTags : Tags) (now : Nat) (last : LastCounter)
    (registry : List (List Char × Metric)) (writeOk : Bool) :
    TickOutcome × LastCounter :=
  let r := reportV1 staticTags now last registry
  if r.1 = [] then
    ({ batchWritten := none, writeErrorLogged := false }, r.2)
  else
    ({ batchWritten := some r.1, writeErrorLogged := !writeOk }, r.2)

/-! ## Run loops

Both `Run` loops block in a two-way select; the environment decides,
interval after interval, whether the ticker fired (with the registry
contents and the sink verdict it will see) or the context was
cancelled.  A schedule is that decision sequence. -/

/-- One select outcome of the run loop. -/
inductive TickEvent where
  | tick (now : Nat) (registry : List (List Char × Metric)) (writeOk : Bool)
  | ctxDone
deriving DecidableEq

/-- Ticks the loop reaches before the first cancellation. -/
def ticksBeforeDone : List TickEvent → Nat
  | [] => 0
  | .ctxDone :: _ => 0
  | .tick _ _ _ :: rest => ticksBeforeDone rest + 1

/-- The earlier `Run` loop after successful client construction:
one `report` per ticker fire, return on `ctx.Done()`. -/
def runV1Loop (staticTags : Tags) (last : LastCounter) :
    List TickEvent → List TickOutcome
  | [] => []
  | .ctxDone :: _ => []
  | .tick now reg ok :: rest =>
    let r := reportV1Tick staticTags now last reg ok
    r.1 :: runV1Loop staticTags r.2 rest

/-- The earlier `Run`: `client.NewHTTPClient` first; on error, log
`"creating new influx client"` and return before the ticker loop.  The
`Bool` result records whether that construction error was logged. -/
def runV1 (staticTags : Tags) (last : LastCounter) (clientErr : Bool)
    (events : List TickEvent) : Bool × List TickOutcome :=
  if clientErr then (true, [])
  else (false, runV1Loop staticTags last events)

/-! ## Shutdown trace of the current `Run`

The current `Run` owns an error-drain goroutine registered in a
`sync.WaitGroup`; on `ctx.Done()` it runs `client.Close()`, then
`wg.Wait()`, then returns.  Per tick it calls `rapi.WritePoint` for
each produced point and `rapi.Flush()`.  The observable actions, in
program order: -/

inductive RunAction where
  | writePoint (p : Point)
  | flush
  | closeClient
  | drainJoined
  | returned
deriving DecidableEq

/-- Action trace of the current `Run` under a schedule. A schedule that
never cancels yields a trace without `returned`: `Run` blocks forever. -/
def runV2Trace (staticTags : Tags) (last : LastCounter) :
    List TickEvent → List RunAction
  | [] => []
  | .ctxDone :: _ => [.closeClient, .drainJoined, .returned]
  | .tick now reg _ :: rest =>
    let r := report staticTags now last reg
    r.1.map RunAction.writePoint ++ .flush :: runV2Trace staticTags r.2 rest

/-! ## Helper lemmas -/

theorem mget_mset {K V : Type} [DecidableEq K] (m : List (K × V)) (k k' : K) (v : V) :
    mget (mset m k v) k' = if k = k' then some v else mget m k' := by
  induction m with
  | nil => by_cases h : k = k' <;> simp [mget, mset, h]
  | cons hd tl ih =>
    obtain ⟨k0, v0⟩ := hd
    by_cases h0 : k0 = k
    · by_cases h : k = k' <;> simp [mget, mset, h0, h]
    · simp only [mset, if_neg h0]
      by_cases h' : k0 = k'
      · subst h'
        have : ¬ k = k0 := fun h => h0 h.symm
        simp [mget, this, ih]
      · simp [mget, h', ih]

theorem oOr_assoc {V : Type} (a b c : Option V) :
    oOr (oOr a b) c = oOr a (oOr b c) := by
  cases a <;> rfl

theorem oOr_none {V : Type} (b : Option V) : oOr none b = b := rfl

theorem splitOnC_ne_nil (sep : Char) (s : List Char) : splitOnC sep s ≠ [] := by
  cases s with
  | nil => simp [splitOnC]
  | cons c rest =>
    simp only [splitOnC]
    match h : splitOnC sep rest with
    | [] => simp
    | s0 :: ss => by_cases hc : c = sep <;> simp [hc]

/-- A string without the separator splits to the single segment itself. -/
theorem splitOnC_of_not_mem (sep : Char) (s : List Char) (h : sep ∉ s) :
    splitOnC sep s = [s] := by
  induction s with
  | nil => rfl
  | cons c rest ih =>
    have hc : c ≠ sep := fun hc => h (hc ▸ List.mem_cons_self c rest)
    have hrest : sep ∉ rest := fun hr => h (List.mem_cons_of_mem c hr)
    simp [splitOnC, ih hrest, hc]

/-- The number of segments is one more than the number of separators. -/
theorem splitOnC_length (sep : Char) (s : List Char) :
    (splitOnC sep s).length = s.count sep + 1 := by
  induction s with
  | nil => rfl
  | cons c rest ih =>
    simp only [splitOnC]
    match h : splitOnC sep rest with
    | [] => exact absurd h (splitOnC_ne_nil sep rest)
    | s0 :: ss =>
      rw [h] at ih
      by_cases hc : c = sep
      · subst hc
        show (if c = c then [] :: s0 :: ss else (c :: s0) :: ss).length = _
        rw [if_pos rfl, List.count_cons_self]
        simp only [List.length_cons] at ih ⊢
        omega
      · have hcnt : (c :: rest).count sep = rest.count sep := by
          rw [List.count_cons, if_neg (by simpa using hc)]
          omega
        show (if c = sep then [] :: s0 :: ss else (c :: s0) :: ss).length = _
        rw [if_neg hc, hcnt]
        simp only [List.length_cons] at ih ⊢
        omega

/-- A segment with exactly one separator splits into the part before it
and the part after it. -/
theorem splitOnC_of_count_one (sep : Char) (s : List Char) (h : s.count sep = 1) :
    splitOnC sep s =
      [s.takeWhile (fun c => c ≠ sep), (s.dropWhile (fun c => c ≠ sep)).tail] := by
  induction s with
  | nil => simp [List.count_nil] at h
  | cons c rest ih =>
    by_cases hc : c = sep
    · subst hc
      have hrest : rest.count c = 0 := by
        have := List.count_cons_self c rest
        omega
      have hnm : c ∉ rest := by
        rw [← List.count_pos_iff]
        omega
      have hsplit := splitOnC_of_not_mem c rest hnm
      simp only [splitOnC, hsplit, if_pos rfl]
      simp [List.takeWhile, List.dropWhile]
    · have hcount : rest.count sep = 1 := by
        have := List.count_cons sep c rest  -- count (c :: rest) in terms of rest
        rw [List.count_cons, if_neg (by simpa using hc)] at h
        exact h
      have := ih hcount
      simp only [splitOnC, this, if_neg hc]
      simp [List.takeWhile_cons, List.dropWhile_cons, hc]

theorem parseStep_eq_specParseStep (acc : List Char × Tags) (seg : List Char) :
    parseStep acc seg = specParseStep acc seg := by
  by_cases h : seg.count '=' = 1
  · rw [specParseStep, if_pos h, parseStep, splitOnC_of_count_one _ _ h]
  · have hlen : (splitOnC '=' seg).length ≠ 2 := by
      rw [splitOnC_length]
      omega
    rw [specParseStep, if_neg h, parseStep]
    match hs : splitOnC '=' seg with
    | [] => rfl
    | [_] => rfl
    | [k, v] => rw [hs] at hlen; simp at hlen
    | _ :: _ :: _ :: _ => rfl

theorem parseName_eq_specParseName (name : List Char) (tags0 : Tags) :
    parseName name tags0 = specParseName name tags0 := by
  rw [parseName, specParseName]
  match splitOnC ',' name with
  | [] => rfl
  | [_] => rfl
  | p0 :: s :: ss =>
    show List.foldl parseStep (p0, tags0) (s :: ss) = _
    congr 1
    funext acc seg
    exact parseStep_eq_specParseStep acc seg

/-- Names without a comma are left untouched: the measurement is the
name itself and the tag map is not written to. -/
theorem parseName_no_comma (name : List Char) (tags0 : Tags) (h : ',' ∉ name) :
    parseName name tags0 = (name, tags0) := by
  rw [parseName, splitOnC_of_not_mem _ _ h]

theorem translate_some_shape {staticTags : Tags} {ts : Nat} {last : LastCounter}
    {name : List Char} {m : Metric} {p : Point} {l' : LastCounter}
    (h : translate staticTags ts last name m = (some p, l')) :
    p.tags = (parseName name staticTags).2 ∧ p.timestamp = ts := by
  cases m <;> simp [translate] at h
  all_goals
    obtain ⟨h1, _⟩ := h
    subst h1
    exact ⟨rfl, rfl⟩

/-- The tag-map component of the parsing loop does not depend on the
measurement accumulator. -/
theorem foldl_parseStep_tags_indep (segs : List (List Char)) (m m' : List Char)
    (t : Tags) :
    (segs.foldl parseStep (m, t)).2 = (segs.foldl parseStep (m', t)).2 := by
  induction segs generalizing m m' t with
  | nil => rfl
  | cons s rest ih =>
    show (rest.foldl parseStep (parseStep (m, t) s)).2
        = (rest.foldl parseStep (parseStep (m', t) s)).2
    rw [parseStep, parseStep]
    match splitOnC '=' s with
    | [k, v] => exact ih m m' (mset t k v)
    | [] => exact ih _ _ t
    | [_] => exact ih _ _ t
    | _ :: _ :: _ :: _ => exact ih _ _ t

/-- Decomposition of the tag map after the parsing loop: a lookup hits
the name-derived tags first and falls back to the initial map. -/
theorem foldl_parseStep_tags_union (segs : List (List Char)) (m : List Char)
    (t : Tags) (k : List Char) :
    mget ((segs.foldl parseStep (m, t)).2) k
      = oOr (mget ((segs.foldl parseStep (m, [])).2) k) (mget t k) := by
  induction segs generalizing m t with
  | nil => rfl
  | cons s rest ih =>
    show mget ((rest.foldl parseStep (parseStep (m, t) s)).2) k
        = oOr (mget ((rest.foldl parseStep (parseStep (m, []) s)).2) k) (mget t k)
    rw [parseStep, parseStep]
    match splitOnC '=' s with
    | [k0, v] =>
      show mget ((rest.foldl parseStep (m, mset t k0 v)).2) k
          = oOr (mget ((rest.foldl parseStep (m, mset [] k0 v)).2) k) (mget t k)
      rw [ih m (mset t k0 v), ih m (mset [] k0 v), oOr_assoc]
      congr 1
      show mget (mset t k0 v) k = oOr (mget (mset [] k0 v) k) (mget t k)
      rw [mget_mset, mget_mset]
      by_cases hk : k0 = k
      · simp [hk, oOr]
      · simp [hk, oOr, mget]
    | [] => exact ih _ t
    | [_] => exact ih _ t
    | _ :: _ :: _ :: _ => exact ih _ t

/-- At the `parseName` level: a lookup in the final tag map prefers
the name-derived tags and falls back to the map it started from. -/
theorem parseName_tags_union (name : List Char) (t : Tags) (k : List Char) :
    mget (parseName name t).2 k
      = oOr (mget (parseName name []).2 k) (mget t k) := by
  rw [parseName, parseName]
  match splitOnC ',' name with
  | [] => rfl
  | [_] => rfl
  | p0 :: s :: ss => exact foldl_parseStep_tags_union (s :: ss) p0 t k

/-- Unconditional store: after the counter arm, the stored value for
the raw name is the current count. -/
theorem lastGet_mset_self (last : LastCounter) (name : List Char) (c : Int) :
    lastGet (mset last name c) name = c := by
  rw [lastGet, mget_mset, if_pos rfl]
  rfl

/-! ## Claim theorems -/

/-- C1.  For a counter instrument, the produced point has field
`count` equal to the current cumulative value and field `diff` equal
to the current value minus the stored value for that raw name, clamped
to the full current count when that subtraction would be negative; the
stored value for that name is then set to the current count
unconditionally.  Observing 10 then 25 then 5 across three ticks
yields diffs 10, 15, 5. -/
theorem counter_count_diff_clamped :
    (∀ (staticTags : Tags) (ts : Nat) (last : LastCounter) (name : List Char)
        (c : Int),
      ∃ p, (translate staticTags ts last name (.counter c)).1 = some p
        ∧ mget p.fields "count" = some c
        ∧ mget p.fields "diff"
          = some (if c - lastGet last name < 0 then c else c - lastGet last name)
        ∧ lastGet (translate staticTags ts last name (.counter c)).2 name = c)
    ∧ (let n := "ctr".toList
       let s1 := report [] 1 [] [(n, .counter 10)]
       let s2 := report [] 2 s1.2 [(n, .counter 25)]
       let s3 := report [] 3 s2.2 [(n, .counter 5)]
       s1.1.map (fun p => mget p.fields "diff") = [some 10]
       ∧ s2.1.map (fun p => mget p.fields "diff") = [some 15]
       ∧ s3.1.map (fun p => mget p.fields "diff") = [some 5]) := by
  constructor
  · intro staticTags ts last name c
    refine ⟨_, rfl, ?_, ?_, lastGet_mset_self last name c⟩
    · rfl
    · rfl
  · exact ⟨by decide, by decide, by decide⟩

/-- C2.  Measurement/tag parsing: the first comma segment is the base
measurement; each later segment with exactly one `=` becomes a tag
(later duplicates overwrite), any other segment is re-appended to the
measurement with its leading comma (proved as equality of the source
parser with a parser built from the spec's words); a name with no
comma parses to itself with no tags; and the two documented examples
parse as documented, with duplicate keys resolved to the later value. -/
theorem name_tag_parsing :
    (∀ (name : List Char) (tags0 : Tags),
      parseName name tags0 = specParseName name tags0)
    ∧ (∀ (name : List Char) (tags0 : Tags), ',' ∉ name →
      parseName name tags0 = (name, tags0))
    ∧ parseName "hit_counter,region=eu,customerID=15".toList []
      = ("hit_counter".toList,
         [("region".toList, "eu".toList), ("customerID".toList, "15".toList)])
    ∧ parseName "hit_counter,smth,a=b".toList []
      = ("hit_counter,smth".toList, [("a".toList, "b".toList)])
    ∧ mget (parseName "m,a=1,a=2".toList []).2 "a".toList = some "2".toList := by
  refine ⟨parseName_eq_specParseName, parseName_no_comma, ?_, ?_, ?_⟩
  · decide
  · decide
  · decide

/-- Witness for C2: the no-comma branch applied to a concrete name. -/
theorem name_tag_parsing_witness :
    parseName "gauge_x".toList [] = ("gauge_x".toList, []) :=
  name_tag_parsing.2.1 "gauge_x".toList [] (by decide)

/-- C7.  All points produced within one tick of the current `report`
carry the tick's single timestamp. -/
theorem tick_single_timestamp (staticTags : Tags) (ts : Nat)
    (last : LastCounter) (registry : List (List Char × Metric)) (p : Point)
    (hp : p ∈ (report staticTags ts last registry).1) :
    p.timestamp = ts := by
  induction registry generalizing last with
  | nil => simp [report] at hp
  | cons e rest ih =>
    obtain ⟨name, m⟩ := e
    rw [report] at hp
    match htr : translate staticTags ts last name m with
    | (none, last') =>
      rw [htr] at hp
      exact ih last' hp
    | (some p0, last') =>
      rw [htr] at hp
      rcases List.mem_cons.mp hp with hph | hpt
      · subst hph
        exact (translate_some_shape htr).2
      · exact ih last' hpt

/-- Witness for C7: a concrete one-gauge registry at timestamp 42. -/
theorem tick_single_timestamp_witness :
    ({ measurement := "g".toList, tags := [], fields := [("value", (7 : Int))],
       timestamp := 42 } : Point).timestamp = 42 :=
  tick_single_timestamp [] 42 [] [("g".toList, .gauge 7)] _ (by decide)

/-- C8.  An unrecognized instrument kind produces no point, raises no
error, leaves the counter-delta state unchanged, and removing it from
the registry does not change the tick's output at all. -/
theorem unrecognized_kind_skipped :
    (∀ (staticTags : Tags) (ts : Nat) (last : LastCounter) (name : List Char),
      translate staticTags ts last name .other = (none, last))
    ∧ (∀ (staticTags : Tags) (ts : Nat) (last : LastCounter)
        (pre post : List (List Char × Metric)) (name : List Char),
      report staticTags ts last (pre ++ (name, .other) :: post)
        = report staticTags ts last (pre ++ post)) := by
  constructor
  · intro staticTags ts last name
    rfl
  · intro staticTags ts last pre post name
    induction pre generalizing last with
    | nil => simp [report, translate]
    | cons e rest ih =>
      obtain ⟨n0, m0⟩ := e
      rw [List.cons_append, List.cons_append, report, report]
      match htr : translate staticTags ts last n0 m0 with
      | (none, last') => exact ih last'
      | (some p0, last') =>
        show (p0 :: (report staticTags ts last' (rest ++ (name, .other) :: post)).1,
              (report staticTags ts last' (rest ++ (name, .other) :: post)).2)
            = (p0 :: (report staticTags ts last' (rest ++ post)).1,
              (report staticTags ts last' (rest ++ post)).2)
        rw [ih last']

/-- C3.  Every produced point's tag set is the union of the static
tags and the tags parsed from the instrument name, with name-derived
tags taking precedence: a lookup hits the name-derived binding first
and falls back to the static one. -/
theorem point_tags_union (staticTags : Tags) (ts : Nat) (last : LastCounter)
    (name : List Char) (m : Metric) (p : Point) (l' : LastCounter)
    (h : translate staticTags ts last name m = (some p, l')) (k : List Char) :
    mget p.tags k = oOr (mget (parseName name []).2 k) (mget staticTags k) := by
  rw [(translate_some_shape h).1, parseName_tags_union]

/-- Witness for C3: static tag `region=us`, name-derived `region=eu`;
the name-derived value is the one present. -/
theorem point_tags_union_witness :
    mget ({ measurement := "hit".toList,
            tags := [("region".toList, "eu".toList)],
            fields := [("value", (7 : Int))], timestamp := 0 } : Point).tags
        "region".toList
      = oOr (mget (parseName "hit,region=eu".toList []).2 "region".toList)
            (mget [("region".toList, "us".toList)] "region".toList) :=
  point_tags_union [("region".toList, "us".toList)] 0 [] "hit,region=eu".toList
    (.gauge 7) _ [] (by decide) "region".toList

/-- C4.  A failed batch write is non-fatal: the loop produces one
outcome per tick before the first cancellation, independent of every
sink verdict, so tick N+1 still reports after a failure on tick N; the
failure is recorded through the logger exactly when a non-empty batch
was written and refused.  (`report` has no error result to propagate:
non-escalation to `Run`'s caller is structural.) -/
theorem write_failure_nonfatal :
    (∀ (staticTags : Tags) (last : LastCounter) (events : List TickEvent),
      (runV1Loop staticTags last events).length = ticksBeforeDone events)
    ∧ (∀ (staticTags : Tags) (now : Nat) (last : LastCounter)
        (registry : List (List Char × Metric)),
      (reportV1Tick staticTags now last registry false).1.writeErrorLogged
        = if (reportV1 staticTags now last registry).1 = [] then false
          else true) := by
  constructor
  · intro staticTags last events
    induction events generalizing last with
    | nil => rfl
    | cons e rest ih =>
      cases e with
      | ctxDone => rfl
      | tick now reg ok =>
        show (runV1Loop staticTags _ rest).length + 1 = ticksBeforeDone rest + 1
        rw [ih]
  · intro staticTags now last registry
    by_cases h : (reportV1 staticTags now last registry).1 = [] <;>
      simp [reportV1Tick, h]

/-- C5.  If constructing the sink client fails, `Run` logs the error
and returns before the ticker loop: no reporting cycle executes, under
any schedule. -/
theorem client_construction_failure (staticTags : Tags) (last : LastCounter)
    (events : List TickEvent) :
    runV1 staticTags last true events = (true, []) := rfl

/-- C6.  When cancellation fires, the trace of the current `Run` ends
with closing the client, joining the error-drain goroutine, and only
then returning; everything before that is tick work (point writes and
flushes), so no sink write follows the return. -/
theorem shutdown_order (staticTags : Tags) (last : LastCounter)
    (events : List TickEvent)
    (h : RunAction.returned ∈ runV2Trace staticTags last events) :
    ∃ pre, runV2Trace staticTags last events
        = pre ++ [.closeClient, .drainJoined, .returned]
      ∧ ∀ a ∈ pre, a = .flush ∨ ∃ p, a = .writePoint p := by
  induction events generalizing last with
  | nil => simp [runV2Trace] at h
  | cons e rest ih =>
    cases e with
    | ctxDone =>
      refine ⟨[], rfl, ?_⟩
      intro a ha
      simp at ha
    | tick now reg ok =>
      simp only [runV2Trace] at h ⊢
      have hmem : RunAction.returned
          ∈ runV2Trace staticTags (report staticTags now last reg).2 rest := by
        rcases List.mem_append.mp h with hl | hr
        · rcases List.mem_map.mp hl with ⟨p, _, hp⟩
          exact RunAction.noConfusion hp
        · rcases List.mem_cons.mp hr with hf | ht
          · exact RunAction.noConfusion hf
          · exact ht
      obtain ⟨pre', heq, hall⟩ := ih _ hmem
      refine ⟨(report staticTags now last reg).1.map RunAction.writePoint
          ++ .flush :: pre', ?_, ?_⟩
      · rw [heq]
        simp [List.append_assoc]
      · intro a ha
        rcases List.mem_append.mp ha with hl | hr
        · rcases List.mem_map.mp hl with ⟨p, _, hp⟩
          exact Or.inr ⟨p, hp.symm⟩
        · rcases List.mem_cons.mp hr with hf | ht
          · exact Or.inl hf
          · exact hall a ht

/-- Witness for C6: a schedule that cancels immediately. -/
theorem shutdown_order_witness :
    ∃ pre, runV2Trace [] [] [TickEvent.ctxDone]
        = pre ++ [.closeClient, .drainJoined, .returned]
      ∧ ∀ a ∈ pre, a = .flush ∨ ∃ p, a = .writePoint p :=
  shutdown_order [] [] [TickEvent.ctxDone] (by decide)

/-- C9.  The earlier `report` hands a batch to the sink exactly when
it is non-empty, and the batch it hands over is the full point list of
that tick. -/
theorem batch_written_iff_nonempty :
    (∀ (staticTags : Tags) (now : Nat) (last : LastCounter)
        (registry : List (List Char × Metric)) (writeOk : Bool),
      ((reportV1Tick staticTags now last registry writeOk).1.batchWritten = none
        ↔ (reportV1 staticTags now last registry).1 = []))
    ∧ (∀ (staticTags : Tags) (now : Nat) (last : LastCounter)
        (registry : List (List Char × Metric)) (writeOk : Bool)
        (b : List Point),
      (reportV1Tick staticTags now last registry writeOk).1.batchWritten = some b
        → b = (reportV1 staticTags now last registry).1) := by
  constructor
  · intro staticTags now last registry writeOk
    by_cases h : (reportV1 staticTags now last registry).1 = [] <;>
      simp [reportV1Tick, h]
  · intro staticTags now last registry writeOk b hb
    by_cases h : (reportV1 staticTags now last registry).1 = [] <;>
      simp [reportV1Tick, h] at hb
    exact hb.symm

/-- Witness for C9: a one-counter registry writes its whole batch. -/
theorem batch_written_iff_nonempty_witness :
    [({ measurement := "c".toList, tags := [],
        fields := [("count", (5 : Int)), ("diff", (5 : Int))],
        timestamp := 0 } : Point)]
      = (reportV1 [] 0 [] [("c".toList, .counter 5)]).1 :=
  batch_written_iff_nonempty.2 [] 0 [] [("c".toList, .counter 5)] true _ (by decide)

/-- C10.  The counter-delta state is keyed by the full raw instrument
name: a name never observed reads as zero, so its first point's `diff`
equals the full count; and updating one name leaves any other name's
stored value untouched, even when both names parse to the same
measurement. -/
theorem delta_state_keyed_by_raw_name :
    (∀ (staticTags : Tags) (ts : Nat) (last : LastCounter) (name : List Char)
        (c : Int) (p : Point) (l' : LastCounter),
      mget last name = none →
      translate staticTags ts last name (.counter c) = (some p, l') →
      mget p.fields "diff" = some c)
    ∧ (∀ (staticTags : Tags) (ts : Nat) (last : LastCounter)
        (n1 n2 : List Char) (c : Int),
      (parseName n1 []).1 = (parseName n2 []).1 → n1 ≠ n2 →
      lastGet (translate staticTags ts last n1 (.counter c)).2 n2
        = lastGet last n2) := by
  constructor
  · intro staticTags ts last name c p l' h0 htr
    have hl : lastGet last name = 0 := by rw [lastGet, h0]; rfl
    simp only [translate, hl] at htr
    obtain ⟨hp, _⟩ := Prod.mk.injEq .. ▸ htr
    obtain hp := Option.some.inj hp
    subst hp
    show some (if c - 0 < 0 then c else c - 0) = some c
    rw [Int.sub_zero, ite_self]
  · intro staticTags ts last n1 n2 c hmeas hne
    show lastGet (mset last n1 c) n2 = lastGet last n2
    rw [lastGet, mget_mset, if_neg hne, lastGet]

/-- Witness for C10: first observation of `m,a=b` yields `diff = 7`;
updating `m,a=b` leaves the state of `m,c=d` (same measurement `m`)
untouched. -/
theorem delta_state_keyed_by_raw_name_witness :
    mget ({ measurement := "m".toList, tags := [("a".toList, "b".toList)],
            fields := [("count", (7 : Int)), ("diff", (7 : Int))],
            timestamp := 0 } : Point).fields "diff" = some 7
    ∧ lastGet (translate [] 0 [("m,c=d".toList, 3)] "m,a=b".toList
        (.counter 7)).2 "m,c=d".toList
      = lastGet [("m,c=d".toList, 3)] "m,c=d".toList :=
  ⟨delta_state_keyed_by_raw_name.1 [] 0 [] "m,a=b".toList 7
      { measurement := "m".toList, tags := [("a".toList, "b".toList)],
        fields := [("count", 7), ("diff", 7)], timestamp := 0 }
      [("m,a=b".toList, 7)] (by decide) (by decide),
   delta_state_keyed_by_raw_name.2 [] 0 [("m,c=d".toList, 3)] "m,a=b".toList
      "m,c=d".toList 7 (by decide) (by decide)⟩

end GoMetricsInflux
